import Mathlib

/-!
Verification of the voice_processing dataset tooling.

The development shallowly embeds the pure algorithmic core of the repository:
the JSONL loaders, the canonical-fingerprint similarity engine, the duplicate
clustering of `compare_datasets.py`, the usage-frequency analyzer and
golden-entry selector of `prepare_golden_dataset.py` / `analyze_top_miners.py`,
the complete-duplicate check of `check_datasets.py`, and the unique-dataset
selector of `prepare_unique_dataset.py`.

Records are modelled by an arbitrary type `R`; the canonical serialization
`json.dumps(item, sort_keys=True)` is modelled by an abstract fingerprint
function `f : R → String` (the engine only ever uses the serialized string
for equality tests, set membership and sorting, so this is faithful).  The
md5 digest of `analyze_top_miners.get_dataset_hash` is modelled by an
abstract function `md5 : String → String` applied to the concatenation it
digests.  `random.shuffle` / `random.sample` are modelled as explicit
function parameters.
-/

namespace VoiceProcessing

/-! ## Dataset loaders -/

/-- One raw line of a JSONL resource, as seen by `json.loads`: blank,
malformed (fails to parse), or parsing to a record `r`. -/
inductive RawLine (R : Type) where
  | blank : RawLine R
  | malformed : RawLine R
  | valid : R → RawLine R
deriving DecidableEq

/-- The lenient loader of `analyze_top_miners.py` / `prepare_golden_dataset.py`:
`try: data.append(json.loads(line)) except: pass`.  Any line that fails to
parse (blank lines included, since `json.loads("")` raises) is dropped and
loading continues. -/
def load_jsonl {R : Type} : List (RawLine R) → List R
  | [] => []
  | .valid r :: rest => r :: load_jsonl rest
  | .blank :: rest => load_jsonl rest
  | .malformed :: rest => load_jsonl rest

/-- The strict loader of `check_datasets.py` / `prepare_unique_dataset.py`:
`[json.loads(line.strip()) for line in f if line.strip()]`.  Blank lines are
skipped, but the first malformed line raises `JSONDecodeError`, aborting the
load.  (The optional `max_rows` truncation is not involved in any claim and
is omitted.) -/
def load_jsonl_strict {R : Type} : List (RawLine R) → Except String (List R)
  | [] => .ok []
  | .blank :: rest => load_jsonl_strict rest
  | .malformed :: _ => .error "JSONDecodeError"
  | .valid r :: rest => (load_jsonl_strict rest).map (r :: ·)

/-! ## Similarity engine -/

/-- `count_similar` (validator logic, identical in `check_datasets.py`,
`prepare_golden_dataset.py`, `prepare_unique_dataset.py`):
`len(set(dumps(x) for x in a) & set(dumps(x) for x in b))`. -/
def count_similar {R : Type} (f : R → String) (a b : List R) : ℕ :=
  ((a.map f).toFinset ∩ (b.map f).toFinset).card

/-- The sorted fingerprint list digested by `get_dataset_hash`:
`sorted([json.dumps(item, sort_keys=True) for item in data])`. -/
def fingerprintList {R : Type} (f : R → String) (data : List R) : List String :=
  (data.map f).insertionSort (fun a b => a ≤ b)

/-- `analyze_top_miners.get_dataset_hash`: md5 of the concatenation of the
sorted fingerprint list. -/
def get_dataset_hash {R : Type} (md5 : String → String) (f : R → String)
    (data : List R) : String :=
  md5 (String.join (fingerprintList f data))

/-- The first-occurrence reference index (`eval_set_to_idx` /
`eval_indices` in the source): maps a fingerprint string to the first
position of the evaluation collection carrying it. -/
def refIdx {R : Type} (f : R → String) (evalData : List R) (s : String) : Option ℕ :=
  (evalData.map f).findIdx? (fun t => t == s)

/-- `analyze_top_miners.find_entry_positions`: collect, for each miner
record whose fingerprint occurs in the evaluation set, the mapped reference
position, and return the sorted list. -/
def find_entry_positions {R : Type} (f : R → String) (minerData evalData : List R) :
    List ℕ :=
  (minerData.filterMap (fun e => refIdx f evalData (f e))).insertionSort
    (fun a b => a ≤ b)

/-! ## Usage-frequency analyzer

`prepare_golden_dataset.find_golden_entries` accumulates `entry_counts`, a
Python dict keyed by evaluation position.  A Python dict preserves first
insertion order and updates in place, which an association list models
exactly. -/

/-- Lookup in the `entry_counts` association list (`entry_counts.get(idx, 0)`):
0 when the key is absent. -/
def lookupCount : List (ℕ × ℕ) → ℕ → ℕ
  | [], _ => 0
  | (j, c) :: rest, i => if j = i then c else lookupCount rest i

/-- `entry_counts[idx] = entry_counts.get(idx, 0) + 1` on the association
list: bump the first entry with the given key, or append a fresh `(i, 1)`
pair (Python dict insertion order). -/
def bumpCount : List (ℕ × ℕ) → ℕ → List (ℕ × ℕ)
  | [], i => [(i, 1)]
  | (j, c) :: rest, i =>
      if j = i then (j, c + 1) :: rest else (j, c) :: bumpCount rest i

/-- One miner's pass of the counting loop in `find_golden_entries`
(lines 51-55): for every record of the miner whose fingerprint occurs in the
evaluation index, bump the counter at the mapped position — once per
occurrence. -/
def countMinerEntries {R : Type} (f : R → String) (evalData : List R)
    (cts : List (ℕ × ℕ)) (m : List R) : List (ℕ × ℕ) :=
  m.foldl (fun cts e =>
    match refIdx f evalData (f e) with
    | some i => bumpCount cts i
    | none => cts) cts

/-- The full `entry_counts` accumulation of `find_golden_entries` over all
analyzed miner collections. -/
def entryCounts {R : Type} (f : R → String) (evalData : List R)
    (miners : List (List R)) : List (ℕ × ℕ) :=
  miners.foldl (countMinerEntries f evalData) []

/-- `prepare_golden_dataset.find_golden_entries` (the usage percentage,
a float only used for display, is dropped): filter positions whose count
reaches `min_count = int(total_miners * min_usage_pct / 100)` and sort by
count, descending.  The Python expression truncates the float
`total * pct / 100`; with realistic integer sizes the float quotient is
within half an ulp of the exact rational, whose distance to any integer it
is not equal to is at least 1/100, so `int(...)` is exactly the rational
floor, i.e. Nat division. -/
def find_golden_entries {R : Type} (f : R → String) (evalData : List R)
    (miners : List (List R)) (min_usage_pct : ℕ) : List (ℕ × ℕ) :=
  let counts := entryCounts f evalData miners
  let minCount := miners.length * min_usage_pct / 100
  (counts.filter (fun p => decide (minCount ≤ p.2))).insertionSort
    (fun a b => b.2 ≤ a.2)

/-- The threshold exactly as the specification words it:
`ceil(min_usage_fraction * analyzed_count)`, with
`min_usage_fraction = min_usage_pct / 100`.  Stated for comparison with the
floor-based threshold the source actually computes. -/
def specCeilThreshold (min_usage_pct analyzed_count : ℕ) : ℕ :=
  (analyzed_count * min_usage_pct + 99) / 100

/-- Per-occurrence count of records of one collection mapping to reference
position `i`. -/
def occCount {R : Type} (f : R → String) (evalData : List R) (m : List R)
    (i : ℕ) : ℕ :=
  (m.filter (fun e => refIdx f evalData (f e) == some i)).length

/-- Total number of record occurrences, across all analyzed collections,
that map to reference position `i`. -/
def usageCount {R : Type} (f : R → String) (evalData : List R)
    (miners : List (List R)) (i : ℕ) : ℕ :=
  (miners.map (fun m => occCount f evalData m i)).sum

/-- The `entry_counts` Counter of the top-level loop of
`analyze_top_miners.py` (lines 66-71): for each miner, bump the counter at
every position returned by `find_entry_positions`. -/
def analyzerCounts {R : Type} (f : R → String) (evalData : List R)
    (miners : List (List R)) : ℕ → ℕ :=
  miners.foldl
    (fun cnt m =>
      (find_entry_positions f m evalData).foldl
        (fun c idx => fun j => if j = idx then c idx + 1 else c j) cnt)
    (fun _ => 0)

/-- Well-formedness of the `entry_counts` association list: keys are
distinct (it models a dict) and every stored count is positive (a key is
inserted only when first bumped). -/
def CountsWF (cts : List (ℕ × ℕ)) : Prop :=
  (cts.map Prod.fst).Nodup ∧ ∀ p ∈ cts, 1 ≤ p.2

/-! ## Duplicate clustering (`compare_datasets.py`, lines 121-152) -/

/-- The inner loop of the clustering pass: the identifiers pooled with seed
`i` are exactly the other identifiers, in stable order, that are not yet
processed and whose overlap with the seed strictly exceeds the threshold
(`if similar_count > constants.DEFAULT_DUPLICATE_COUNT`). -/
def poolOf {I : Type} [DecidableEq I] (overlap : I → I → ℕ) (thr : ℕ)
    (allIds : List I) (processed : List I) (seed : I) : List I :=
  allIds.filter (fun j =>
    decide (j ≠ seed) && decide (j ∉ processed) && decide (thr < overlap seed j))

/-- The outer clustering loop: walk the identifiers in order, skip processed
ones, pool the matches of each fresh seed, and mark the whole pool
processed.  Groups of size 1 are not recorded (`if len(similar_miners) > 1`). -/
def dupGroupsGo {I : Type} [DecidableEq I] (overlap : I → I → ℕ) (thr : ℕ)
    (allIds : List I) : List I → List I → List (List I)
  | [], _ => []
  | i :: rest, processed =>
    if i ∈ processed then dupGroupsGo overlap thr allIds rest processed
    else
      let pool := poolOf overlap thr allIds processed i
      if pool.isEmpty then dupGroupsGo overlap thr allIds rest (i :: processed)
      else (i :: pool) :: dupGroupsGo overlap thr allIds rest (i :: (pool ++ processed))

/-- `compare_datasets.compare_datasets`, check 2: the duplicate groups found
among the given identifiers (dict keys, in stable insertion order). -/
def compare_datasets_groups {I : Type} [DecidableEq I] (overlap : I → I → ℕ)
    (thr : ℕ) (ids : List I) : List (List I) :=
  dupGroupsGo overlap thr ids ids []

/-! ## Complete-duplicate check (`check_datasets.py`) -/

/-- The result record assembled by `check_miner_vs_eval` (the floating-point
`match_percentage` display value is omitted; `is_suspicious`, which tests
`match_pct >= 50` on the exact rational `similar/total*100`, is expressed
integrally as `0 < total ∧ total ≤ 2 * similar`, which the correctly rounded
float comparison coincides with for realistic sizes). -/
structure CheckResult where
  total_miner_entries : ℕ
  similar_entries : ℕ
  is_complete_duplicate : Bool
  is_majority_duplicate : Bool
  is_suspicious : Bool
  status : String
deriving Repr, DecidableEq

/-- `check_datasets.determine_status`. -/
def determine_status (similar_count total_miner : ℕ)
    (is_duplicate is_majority_duplicate : Bool) : String :=
  if total_miner = 0 then "EMPTY"
  else if is_duplicate then "⚠️  COMPLETE DUPLICATE"
  else if is_majority_duplicate then "⚠️  MAJOR DUPLICATE (>100 entries)"
  else if 50 ≤ similar_count then "⚠️  HIGH SIMILARITY"
  else if 0 < similar_count then "✓ SOME OVERLAP"
  else "✓ NO OVERLAP"

/-- `check_datasets.check_miner_vs_eval` on an already-loaded miner
collection (the unused `eval_data_subset` binding of the source has no
effect and is dropped; the surrounding try/except concerns loading, which
is modelled separately). -/
def check_miner_vs_eval {R : Type} (f : R → String)
    (minerData evalData : List R) (duplicate_threshold : ℕ) : CheckResult :=
  let similar_count := count_similar f minerData evalData
  let total_miner := minerData.length
  let is_duplicate := similar_count == total_miner
  let is_majority_duplicate := duplicate_threshold ≤ similar_count
  { total_miner_entries := total_miner
    similar_entries := similar_count
    is_complete_duplicate := is_duplicate
    is_majority_duplicate := is_majority_duplicate
    is_suspicious := decide (0 < total_miner) && decide (total_miner ≤ 2 * similar_count)
    status := determine_status similar_count total_miner is_duplicate
      is_majority_duplicate }

/-! ## Constrained selector (`prepare_golden_dataset.prepare_golden_dataset`)

The selection state mirrors the pair `selected_indices` / `selected_entries`
of the source (indices kept as a list, used only for membership tests, like
the Python set).  `used` models `used_entries_set`, the set of fingerprints
of every record of every existing miner collection (built when
`ensure_unique` is set, empty otherwise).  `random.shuffle` is modelled by
an explicit `shuffle` parameter. -/

structure SelState (R : Type) where
  idxs : List ℕ
  entries : List R

/-- Phase 1 (first pass, lines 144-156): walk the golden indices, stop once
`target_size` entries are selected, and add every golden entry whose
fingerprint is not in the used set.  Note: this pass does not consult
`selected_indices` before adding. -/
def goldenUniquePhase {R : Type} (f : R → String) (evalData : List R)
    (used : List String) (target : ℕ) :
    List ℕ → SelState R → SelState R
  | [], st => st
  | idx :: rest, st =>
    if target ≤ st.entries.length then st
    else
      match evalData[idx]? with
      | none => goldenUniquePhase f evalData used target rest st
      | some entry =>
        if used.contains (f entry) then
          goldenUniquePhase f evalData used target rest st
        else
          goldenUniquePhase f evalData used target rest
            ⟨st.idxs ++ [idx], st.entries ++ [entry]⟩

/-- Phase 2 (second pass, lines 158-174): add reused golden entries — those
whose fingerprint is already used by an existing miner — up to
`max_reused_golden` of them, skipping indices already selected. -/
def goldenReusedPhase {R : Type} (f : R → String) (evalData : List R)
    (used : List String) (target max_reused_golden : ℕ) :
    List ℕ → ℕ → SelState R → SelState R
  | [], _, st => st
  | idx :: rest, golden_reused, st =>
    if target ≤ st.entries.length then st
    else if max_reused_golden ≤ golden_reused then st
    else
      match evalData[idx]? with
      | none => goldenReusedPhase f evalData used target max_reused_golden rest
          golden_reused st
      | some entry =>
        if idx ∈ st.idxs then
          goldenReusedPhase f evalData used target max_reused_golden rest
            golden_reused st
        else if used.contains (f entry) then
          goldenReusedPhase f evalData used target max_reused_golden rest
            (golden_reused + 1) ⟨st.idxs ++ [idx], st.entries ++ [entry]⟩
        else
          goldenReusedPhase f evalData used target max_reused_golden rest
            golden_reused st

/-- The `available_indices` of phase 3 (lines 184-192): evaluation positions
not yet selected and, when `ensure_unique` is set, whose entry's fingerprint
is unused. -/
def availableIndices {R : Type} (f : R → String) (evalData : List R)
    (used : List String) (ensure_unique : Bool) (selIdxs : List ℕ) : List ℕ :=
  (List.range evalData.length).filter (fun i =>
    !(selIdxs.contains i) &&
      (!ensure_unique || (evalData[i]?.all (fun e => !(used.contains (f e))))))

/-- Phase 3 (lines 178-204): fill the remaining slots from a shuffled copy
of the available indices; when fewer are available than requested the
shortfall is reported and the selection stays short of the target. -/
def randomFillPhase {R : Type} (f : R → String) (evalData : List R)
    (used : List String) (target : ℕ) (ensure_unique : Bool)
    (shuffle : List ℕ → List ℕ) (st : SelState R) : SelState R :=
  let avail := availableIndices f evalData used ensure_unique st.idxs
  let remaining := min (target - st.entries.length) avail.length
  let chosen := (shuffle avail).take remaining
  { idxs := st.idxs ++ chosen
    entries := st.entries ++ chosen.filterMap (fun i => evalData[i]?) }

/-- The two golden phases composed, starting from an empty selection. -/
def goldenPhases {R : Type} (f : R → String) (evalData : List R)
    (used : List String) (goldenIndices : List ℕ)
    (target max_reused_golden : ℕ) : SelState R :=
  goldenReusedPhase f evalData used target max_reused_golden goldenIndices 0
    (goldenUniquePhase f evalData used target goldenIndices ⟨[], []⟩)

/-- The complete three-phase selection of
`prepare_golden_dataset.prepare_golden_dataset` (golden-unique →
golden-reused → random-fill). -/
def prepare_golden_select {R : Type} (f : R → String) (evalData : List R)
    (used : List String) (goldenIndices : List ℕ)
    (target max_reused_golden : ℕ) (ensure_unique : Bool)
    (shuffle : List ℕ → List ℕ) : SelState R :=
  randomFillPhase f evalData used target ensure_unique shuffle
    (goldenPhases f evalData used goldenIndices target max_reused_golden)

/-! ## Unique-dataset selector (`prepare_unique_dataset.py`) -/

/-- Phase 1 of `find_unique_entries`: the set of fingerprints of every
record of every miner collection (`all_used_entries`). -/
def allUsedEntries {R : Type} (f : R → String) (miners : List (List R)) :
    List String :=
  miners.foldl (fun s m => s ++ m.map f) []

/-- The inner maximum-overlap scan of the fallback loop:
`max(count_similar(test_set, miner_data) for each miner)`, computed with a
running maximum starting from 0. -/
def maxOverlapWith {R : Type} (f : R → String) (miners : List (List R))
    (test : List R) : ℕ :=
  miners.foldl (fun m md => max m (count_similar f test md)) 0

/-- The fallback loop of `find_unique_entries` (lines 118-129): walk the
candidates, append a candidate whenever the resulting test set keeps the
maximum overlap within the threshold, and stop as soon as the needed size
is reached. -/
def fallbackFill {R : Type} (f : R → String) (miners : List (List R))
    (duplicate_threshold num_needed : ℕ) : List R → List R → List R
  | [], sel => sel
  | c :: cs, sel =>
    if maxOverlapWith f miners (sel ++ [c]) ≤ duplicate_threshold then
      if num_needed ≤ (sel ++ [c]).length then sel ++ [c]
      else fallbackFill f miners duplicate_threshold num_needed cs (sel ++ [c])
    else fallbackFill f miners duplicate_threshold num_needed cs sel

/-- `prepare_unique_dataset.find_unique_entries`: prefer a random sample of
the completely unused evaluation entries; otherwise start from all of them
and try up to `remaining_needed * 10` further candidates through the
fallback loop.  `random.sample` is modelled by the `sample` parameter. -/
def find_unique_entries {R : Type} [DecidableEq R] (f : R → String)
    (sample : ℕ → List R → List R) (evalData : List R)
    (miners : List (List R)) (num_needed duplicate_threshold : ℕ) : List R :=
  let all_used := allUsedEntries f miners
  let completely_unused := evalData.filter (fun e => !(all_used.contains (f e)))
  if num_needed ≤ completely_unused.length then
    sample num_needed completely_unused
  else
    let remaining_needed := num_needed - completely_unused.length
    let remaining_candidates :=
      evalData.filter (fun e => !(completely_unused.contains e))
    fallbackFill f miners duplicate_threshold num_needed
      (remaining_candidates.take (remaining_needed * 10)) completely_unused

/-- The decision made by `prepare_unique_dataset.main` (lines 202-220):
when `find_unique_entries` falls short of the requested count, print an
error and return **without writing any output file** (`none`); otherwise
sort the entries by fingerprint and write them out (`some`). -/
def prepare_unique_dataset_main {R : Type} [DecidableEq R] (f : R → String)
    (sample : ℕ → List R → List R) (evalData : List R)
    (miners : List (List R)) (num_entries duplicate_threshold : ℕ) :
    Option (List R) :=
  let u := find_unique_entries f sample evalData miners num_entries
    duplicate_threshold
  if u.length < num_entries then none
  else some (u.insertionSort (fun a b => f a ≤ f b))

/-! ## Helper lemmas about the loaders -/

theorem load_jsonl_eq_filterMap {R : Type} (ls : List (RawLine R)) :
    load_jsonl ls = ls.filterMap
      (fun l => match l with | .valid r => some r | _ => none) := by
  induction ls with
  | nil => rfl
  | cons l rest ih => cases l <;> simp [load_jsonl, ih]

theorem load_jsonl_append {R : Type} (ls₁ ls₂ : List (RawLine R)) :
    load_jsonl (ls₁ ++ ls₂) = load_jsonl ls₁ ++ load_jsonl ls₂ := by
  simp [load_jsonl_eq_filterMap]

/-! ## Helper lemmas about sorting and counting -/

theorem fingerprintList_perm_invariant {R : Type} (f : R → String)
    {d₁ d₂ : List R} (h : d₁.Perm d₂) :
    fingerprintList f d₁ = fingerprintList f d₂ := by
  apply List.eq_of_perm_of_sorted (r := fun a b : String => a ≤ b)
  · exact ((List.perm_insertionSort _ _).trans (h.map f)).trans
      (List.perm_insertionSort _ _).symm
  · exact List.sorted_insertionSort _ _
  · exact List.sorted_insertionSort _ _

theorem count_filterMap_eq_length_filter {α : Type}
    (g : α → Option ℕ) (i : ℕ) (l : List α) :
    (l.filterMap g).count i = (l.filter (fun e => g e == some i)).length := by
  induction l with
  | nil => rfl
  | cons e rest ih =>
    cases hg : g e with
    | none => simp [List.filterMap_cons, hg, ih, List.filter_cons]
    | some j =>
      by_cases hji : j = i
      · subst hji
        simp [List.filterMap_cons, hg, List.count_cons, ih, List.filter_cons]
      · have : (some j == some i) = false := by
          simp [hji]
        simp [List.filterMap_cons, hg, List.count_cons, ih, List.filter_cons,
          this, hji]

theorem lookupCount_bumpCount (cts : List (ℕ × ℕ)) (j i : ℕ) :
    lookupCount (bumpCount cts j) i =
      if j = i then lookupCount cts i + 1 else lookupCount cts i := by
  induction cts with
  | nil =>
    by_cases h : j = i <;> simp [bumpCount, lookupCount, h]
  | cons p rest ih =>
    obtain ⟨k, c⟩ := p
    by_cases hkj : k = j <;> by_cases hki : k = i
    · have hji : j = i := by omega
      simp [bumpCount, lookupCount, hkj, hki, hji]
    · have hji : ¬ j = i := by omega
      simp [bumpCount, lookupCount, hkj, hki, hji]
    · have hji : ¬ j = i := by omega
      have hij : ¬ i = j := by omega
      simp [bumpCount, lookupCount, hkj, hki, hji, hij]
    · simp [bumpCount, lookupCount, hkj, hki, ih]

theorem lookupCount_countMinerEntries {R : Type} (f : R → String)
    (evalData : List R) (m : List R) (cts : List (ℕ × ℕ)) (i : ℕ) :
    lookupCount (countMinerEntries f evalData cts m) i =
      lookupCount cts i + occCount f evalData m i := by
  induction m generalizing cts with
  | nil => simp [countMinerEntries, occCount]
  | cons e m' ih =>
    cases hr : refIdx f evalData (f e) with
    | none =>
      have step : countMinerEntries f evalData cts (e :: m') =
          countMinerEntries f evalData cts m' := by
        simp [countMinerEntries, hr]
      have hocc : occCount f evalData (e :: m') i = occCount f evalData m' i := by
        simp [occCount, List.filter_cons, hr]
      rw [step, ih, hocc]
    | some j =>
      have step : countMinerEntries f evalData cts (e :: m') =
          countMinerEntries f evalData (bumpCount cts j) m' := by
        simp [countMinerEntries, hr]
      by_cases hji : j = i
      · have hocc : occCount f evalData (e :: m') i =
            occCount f evalData m' i + 1 := by
          simp [occCount, List.filter_cons, hr, hji]
        rw [step, ih, hocc, lookupCount_bumpCount]
        simp [hji]
        omega
      · have hne : (some j == some i) = false := by simp [hji]
        have hocc : occCount f evalData (e :: m') i = occCount f evalData m' i := by
          simp [occCount, List.filter_cons, hr, hne]
        rw [step, ih, hocc, lookupCount_bumpCount]
        simp [hji]

theorem lookupCount_foldl_countMiner {R : Type} (f : R → String)
    (evalData : List R) (miners : List (List R)) (cts : List (ℕ × ℕ)) (i : ℕ) :
    lookupCount (miners.foldl (countMinerEntries f evalData) cts) i =
      lookupCount cts i + usageCount f evalData miners i := by
  induction miners generalizing cts with
  | nil => simp [usageCount]
  | cons m ms ih =>
    simp only [List.foldl_cons]
    rw [ih, lookupCount_countMinerEntries]
    simp [usageCount]
    omega

theorem lookupCount_entryCounts {R : Type} (f : R → String) (evalData : List R)
    (miners : List (List R)) (i : ℕ) :
    lookupCount (entryCounts f evalData miners) i =
      usageCount f evalData miners i := by
  have h := lookupCount_foldl_countMiner f evalData miners [] i
  simpa [entryCounts, lookupCount] using h

theorem bumpCount_keys (cts : List (ℕ × ℕ)) (j : ℕ) :
    (bumpCount cts j).map Prod.fst =
      if j ∈ cts.map Prod.fst then cts.map Prod.fst
      else cts.map Prod.fst ++ [j] := by
  induction cts with
  | nil => simp [bumpCount]
  | cons q rest ih =>
    obtain ⟨k, c⟩ := q
    by_cases hkj : k = j
    · subst hkj
      simp [bumpCount]
    · have hjk : ¬ j = k := fun h => hkj h.symm
      by_cases hmem : j ∈ rest.map Prod.fst
      · simp [bumpCount, hkj, hjk, hmem, ih]
      · simp [bumpCount, hkj, hjk, hmem, ih]

theorem bumpCount_vals {cts : List (ℕ × ℕ)} (h : ∀ p ∈ cts, 1 ≤ p.2) (j : ℕ) :
    ∀ p ∈ bumpCount cts j, 1 ≤ p.2 := by
  induction cts with
  | nil =>
    intro p hp
    simp [bumpCount] at hp
    simp [hp]
  | cons q rest ih =>
    obtain ⟨k, c⟩ := q
    intro p hp
    by_cases hkj : k = j
    · simp [bumpCount, hkj] at hp
      rcases hp with hp | hp
      · simp [hp]
      · exact h p (List.mem_cons_of_mem _ hp)
    · simp only [bumpCount, if_neg hkj] at hp
      rcases List.mem_cons.mp hp with hp | hp
      · exact hp ▸ h (k, c) (List.mem_cons_self _ _)
      · exact ih (fun q hq => h q (List.mem_cons_of_mem _ hq)) p hp

theorem countsWF_bumpCount {cts : List (ℕ × ℕ)} (h : CountsWF cts) (j : ℕ) :
    CountsWF (bumpCount cts j) := by
  refine ⟨?_, bumpCount_vals h.2 j⟩
  rw [bumpCount_keys]
  split
  · exact h.1
  · next hmem =>
      simp [List.nodup_append, h.1, hmem]

theorem countsWF_countMinerEntries {R : Type} (f : R → String)
    (evalData : List R) (m : List R) {cts : List (ℕ × ℕ)} (h : CountsWF cts) :
    CountsWF (countMinerEntries f evalData cts m) := by
  induction m generalizing cts with
  | nil => simpa [countMinerEntries] using h
  | cons e m' ih =>
    cases hr : refIdx f evalData (f e) with
    | none =>
      have step : countMinerEntries f evalData cts (e :: m') =
          countMinerEntries f evalData cts m' := by
        simp [countMinerEntries, hr]
      rw [step]; exact ih h
    | some j =>
      have step : countMinerEntries f evalData cts (e :: m') =
          countMinerEntries f evalData (bumpCount cts j) m' := by
        simp [countMinerEntries, hr]
      rw [step]; exact ih (countsWF_bumpCount h j)

theorem countsWF_foldl_countMiner {R : Type} (f : R → String)
    (evalData : List R) (miners : List (List R)) :
    ∀ {cts : List (ℕ × ℕ)}, CountsWF cts →
      CountsWF (miners.foldl (countMinerEntries f evalData) cts) := by
  induction miners with
  | nil => intro cts h; simpa using h
  | cons m ms ih =>
    intro cts h
    exact ih (countsWF_countMinerEntries f evalData m h)

theorem countsWF_entryCounts {R : Type} (f : R → String) (evalData : List R)
    (miners : List (List R)) : CountsWF (entryCounts f evalData miners) := by
  have base : CountsWF ([] : List (ℕ × ℕ)) := ⟨List.nodup_nil, by simp⟩
  exact countsWF_foldl_countMiner f evalData miners base

theorem lookupCount_eq_of_mem {cts : List (ℕ × ℕ)}
    (hnd : (cts.map Prod.fst).Nodup) {i c : ℕ} (h : (i, c) ∈ cts) :
    lookupCount cts i = c := by
  induction cts with
  | nil => simp at h
  | cons q rest ih =>
    obtain ⟨k, d⟩ := q
    rcases List.mem_cons.mp h with heq | htail
    · obtain ⟨hk, hd⟩ := Prod.mk.injEq .. ▸ heq
      simp [lookupCount, hk.symm, hd]
    · by_cases hki : k = i
      · exfalso
        have : i ∈ rest.map Prod.fst :=
          List.mem_map.mpr ⟨(i, c), htail, rfl⟩
        rw [List.map_cons] at hnd
        exact (List.nodup_cons.mp hnd).1 (hki ▸ this)
      · rw [List.map_cons] at hnd
        simp only [lookupCount, if_neg hki]
        exact ih (List.nodup_cons.mp hnd).2 htail

theorem mem_of_lookupCount_pos {cts : List (ℕ × ℕ)} {i : ℕ}
    (h : lookupCount cts i ≠ 0) : (i, lookupCount cts i) ∈ cts := by
  induction cts with
  | nil => simp [lookupCount] at h
  | cons q rest ih =>
    obtain ⟨k, d⟩ := q
    by_cases hki : k = i
    · subst hki
      simp [lookupCount]
    · simp only [lookupCount, if_neg hki] at h ⊢
      exact List.mem_cons_of_mem _ (ih h)

/-- Characterization of golden classification: a position is in the golden
list returned by `find_golden_entries` exactly when some analyzed record
occurrence maps to it (positive count) and its per-occurrence usage count
reaches `int(total_miners * min_usage_pct / 100)`. -/
theorem mem_find_golden_iff {R : Type} (f : R → String) (evalData : List R)
    (miners : List (List R)) (pct i : ℕ) :
    i ∈ (find_golden_entries f evalData miners pct).map Prod.fst ↔
      1 ≤ usageCount f evalData miners i ∧
        miners.length * pct / 100 ≤ usageCount f evalData miners i := by
  have hWF := countsWF_entryCounts f evalData miners
  have hperm :=
    (List.perm_insertionSort (fun a b : ℕ × ℕ => b.2 ≤ a.2)
      ((entryCounts f evalData miners).filter
        (fun p => decide (miners.length * pct / 100 ≤ p.2)))).map Prod.fst
  rw [find_golden_entries]
  rw [hperm.mem_iff]
  constructor
  · intro h
    obtain ⟨q, hq, hfst⟩ := List.mem_map.mp h
    obtain ⟨hqmem, hqp⟩ := List.mem_filter.mp hq
    obtain ⟨qi, qc⟩ := q
    simp only at hfst
    subst hfst
    have hlook := lookupCount_eq_of_mem hWF.1 hqmem
    have hval := hWF.2 _ hqmem
    rw [lookupCount_entryCounts] at hlook
    simp only [decide_eq_true_eq] at hqp
    exact ⟨hlook ▸ hval, hlook ▸ hqp⟩
  · rintro ⟨hpos, hthr⟩
    have hlook := lookupCount_entryCounts f evalData miners i
    have hne : lookupCount (entryCounts f evalData miners) i ≠ 0 := by
      omega
    have hmem := mem_of_lookupCount_pos hne
    refine List.mem_map.mpr ⟨(i, lookupCount (entryCounts f evalData miners) i),
      List.mem_filter.mpr ⟨hmem, ?_⟩, rfl⟩
    simp only [decide_eq_true_eq]
    omega

/-- The golden index list (`golden_indices` in
`prepare_golden_dataset.prepare_golden_dataset`) never repeats a position:
the underlying dict keys are distinct, and filtering plus sorting preserves
that. -/
theorem find_golden_keys_nodup {R : Type} (f : R → String) (evalData : List R)
    (miners : List (List R)) (pct : ℕ) :
    ((find_golden_entries f evalData miners pct).map Prod.fst).Nodup := by
  have hWF := countsWF_entryCounts f evalData miners
  have hsub :
      (((entryCounts f evalData miners).filter
        (fun p => decide (miners.length * pct / 100 ≤ p.2))).map Prod.fst).Sublist
        ((entryCounts f evalData miners).map Prod.fst) :=
    (List.filter_sublist _).map Prod.fst
  have hnd := hsub.nodup hWF.1
  have hperm :=
    (List.perm_insertionSort (fun a b : ℕ × ℕ => b.2 ≤ a.2)
      ((entryCounts f evalData miners).filter
        (fun p => decide (miners.length * pct / 100 ≤ p.2)))).map Prod.fst
  rw [find_golden_entries]
  exact hperm.nodup_iff.mpr hnd

theorem count_find_entry_positions {R : Type} (f : R → String)
    (m evalData : List R) (i : ℕ) :
    (find_entry_positions f m evalData).count i = occCount f evalData m i := by
  rw [find_entry_positions]
  rw [(List.perm_insertionSort (fun a b : ℕ => a ≤ b)
    (m.filterMap fun e => refIdx f evalData (f e))).count_eq]
  exact count_filterMap_eq_length_filter _ i m

theorem foldl_positionBump (ps : List ℕ) (c : ℕ → ℕ) (i : ℕ) :
    (ps.foldl (fun c idx => fun j => if j = idx then c idx + 1 else c j) c) i =
      c i + ps.count i := by
  induction ps generalizing c with
  | nil => simp
  | cons p ps' ih =>
    simp only [List.foldl_cons, ih, List.count_cons]
    by_cases hip : i = p
    · subst hip
      simp
      omega
    · have hpi2 : ¬ p = i := fun h => hip h.symm
      have hpi : (p == i) = false := by simp [hpi2]
      simp [hip, hpi]

theorem analyzerCounts_eq_usageCount {R : Type} (f : R → String)
    (evalData : List R) (miners : List (List R)) (i : ℕ) :
    analyzerCounts f evalData miners i = usageCount f evalData miners i := by
  rw [analyzerCounts]
  have key : ∀ (ms : List (List R)) (c : ℕ → ℕ),
      (ms.foldl
        (fun cnt m =>
          (find_entry_positions f m evalData).foldl
            (fun c idx => fun j => if j = idx then c idx + 1 else c j) cnt) c) i =
        c i + usageCount f evalData ms i := by
    intro ms
    induction ms with
    | nil => intro c; simp [usageCount]
    | cons m ms' ih =>
      intro c
      simp only [List.foldl_cons, ih, foldl_positionBump,
        count_find_entry_positions]
      simp [usageCount]
      omega
  simpa using key miners (fun _ => 0)

theorem mem_poolOf {I : Type} [DecidableEq I] {overlap : I → I → ℕ} {thr : ℕ}
    {allIds processed : List I} {seed j : I} :
    j ∈ poolOf overlap thr allIds processed seed ↔
      j ∈ allIds ∧ j ≠ seed ∧ j ∉ processed ∧ thr < overlap seed j := by
  simp [poolOf, List.mem_filter, and_assoc]

/-- Every member of every emitted group was unprocessed when the walk
started. -/
theorem dupGroupsGo_members_not_processed {I : Type} [DecidableEq I]
    (overlap : I → I → ℕ) (thr : ℕ) (allIds : List I) :
    ∀ (rest processed : List I) (g : List I),
      g ∈ dupGroupsGo overlap thr allIds rest processed →
        ∀ x ∈ g, x ∉ processed := by
  intro rest
  induction rest with
  | nil => intro processed g hg; simp [dupGroupsGo] at hg
  | cons i rs ih =>
    intro processed g hg x hx
    rw [dupGroupsGo] at hg
    by_cases hip : i ∈ processed
    · rw [if_pos hip] at hg
      exact ih processed g hg x hx
    · rw [if_neg hip] at hg
      by_cases hpool : (poolOf overlap thr allIds processed i).isEmpty
      · simp only [if_pos hpool] at hg
        intro hxp
        exact ih (i :: processed) g hg x hx (List.mem_cons_of_mem _ hxp)
      · simp only [if_neg hpool] at hg
        rcases List.mem_cons.mp hg with hghead | hgtail
        · subst hghead
          rcases List.mem_cons.mp hx with hxi | hxpool
          · exact hxi ▸ hip
          · exact (mem_poolOf.mp hxpool).2.2.1
        · intro hxp
          exact ih (i :: (poolOf overlap thr allIds processed i ++ processed)) g
            hgtail x hx
            (List.mem_cons_of_mem _ (List.mem_append_right _ hxp))

/-- The emitted groups are pairwise disjoint: once a group is emitted, all
its members are marked processed, and later groups contain only unprocessed
identifiers. -/
theorem dupGroupsGo_pairwise_disjoint {I : Type} [DecidableEq I]
    (overlap : I → I → ℕ) (thr : ℕ) (allIds : List I) :
    ∀ (rest processed : List I),
      (dupGroupsGo overlap thr allIds rest processed).Pairwise
        (fun g₁ g₂ => ∀ x ∈ g₁, x ∉ g₂) := by
  intro rest
  induction rest with
  | nil => intro processed; simp [dupGroupsGo]
  | cons i rs ih =>
    intro processed
    rw [dupGroupsGo]
    by_cases hip : i ∈ processed
    · rw [if_pos hip]; exact ih processed
    · rw [if_neg hip]
      by_cases hpool : (poolOf overlap thr allIds processed i).isEmpty
      · simp only [if_pos hpool]; exact ih (i :: processed)
      · simp only [if_neg hpool]
        refine List.Pairwise.cons ?_ (ih _)
        intro g hg x hx
        have hnp := dupGroupsGo_members_not_processed overlap thr allIds rs
          (i :: (poolOf overlap thr allIds processed i ++ processed)) g hg
        intro hxg
        rcases List.mem_cons.mp hx with hxi | hxpool
        · exact hnp x hxg (hxi ▸ List.mem_cons_self _ _)
        · exact hnp x hxg
            (List.mem_cons_of_mem _ (List.mem_append_left _ hxpool))

/-- Every emitted group is a fresh seed followed by exactly the pool the
source computes for it: the unprocessed identifiers whose overlap with the
seed strictly exceeds the threshold. -/
theorem dupGroupsGo_group_shape {I : Type} [DecidableEq I]
    (overlap : I → I → ℕ) (thr : ℕ) (allIds : List I) :
    ∀ (rest processed : List I) (g : List I),
      g ∈ dupGroupsGo overlap thr allIds rest processed →
        ∃ seed procAt, seed ∉ procAt ∧
          g = seed :: poolOf overlap thr allIds procAt seed ∧
          poolOf overlap thr allIds procAt seed ≠ [] := by
  intro rest
  induction rest with
  | nil => intro processed g hg; simp [dupGroupsGo] at hg
  | cons i rs ih =>
    intro processed g hg
    rw [dupGroupsGo] at hg
    by_cases hip : i ∈ processed
    · rw [if_pos hip] at hg
      exact ih processed g hg
    · rw [if_neg hip] at hg
      by_cases hpool : (poolOf overlap thr allIds processed i).isEmpty
      · simp only [if_pos hpool] at hg
        exact ih (i :: processed) g hg
      · simp only [if_neg hpool] at hg
        rcases List.mem_cons.mp hg with hghead | hgtail
        · refine ⟨i, processed, hip, hghead, ?_⟩
          intro hnil
          rw [hnil] at hpool
          exact hpool rfl
        · exact ih _ g hgtail

theorem count_similar_le_dedup_length {R : Type} (f : R → String)
    (a b : List R) : count_similar f a b ≤ (a.map f).dedup.length := by
  rw [count_similar, ← List.card_toFinset]
  exact Finset.card_le_card Finset.inter_subset_left

theorem dedup_length_lt_of_not_nodup {α : Type} [DecidableEq α]
    {l : List α} (h : ¬ l.Nodup) : l.dedup.length < l.length := by
  rcases Nat.lt_or_ge l.dedup.length l.length with hlt | hge
  · exact hlt
  · exfalso
    have hle := (List.dedup_sublist l).length_le
    have heq : l.dedup = l :=
      (List.dedup_sublist l).eq_of_length (Nat.le_antisymm hle hge)
    exact h (heq ▸ List.nodup_dedup l)

/-! ### Selector invariants -/

theorem guPhase_length_le {R : Type} (f : R → String) (evalData : List R)
    (used : List String) (target : ℕ) :
    ∀ (golden : List ℕ) (st : SelState R), st.entries.length ≤ target →
      (goldenUniquePhase f evalData used target golden st).entries.length ≤
        target := by
  intro golden
  induction golden with
  | nil => intro st h; exact h
  | cons idx rest ih =>
    intro st h
    rw [goldenUniquePhase]
    by_cases hfull : target ≤ st.entries.length
    · rw [if_pos hfull]; exact h
    · rw [if_neg hfull]
      cases he : evalData[idx]? with
      | none => exact ih st h
      | some entry =>
        by_cases hused : used.contains (f entry)
        · simp only [hused, if_true]
          exact ih st h
        · simp only [Bool.not_eq_true] at hused
          simp only [hused, Bool.false_eq_true, if_false]
          refine ih _ ?_
          simp only [List.length_append, List.length_cons, List.length_nil]
          omega

theorem guPhase_filter_used {R : Type} (f : R → String) (evalData : List R)
    (used : List String) (target : ℕ) :
    ∀ (golden : List ℕ) (st : SelState R),
      ((goldenUniquePhase f evalData used target golden st).entries.filter
        (fun e => used.contains (f e))) =
      st.entries.filter (fun e => used.contains (f e)) := by
  intro golden
  induction golden with
  | nil => intro st; rfl
  | cons idx rest ih =>
    intro st
    rw [goldenUniquePhase]
    by_cases hfull : target ≤ st.entries.length
    · rw [if_pos hfull]
    · rw [if_neg hfull]
      cases he : evalData[idx]? with
      | none => exact ih st
      | some entry =>
        by_cases hused : used.contains (f entry)
        · simp only [hused, if_true]
          exact ih st
        · simp only [Bool.not_eq_true] at hused
          simp only [hused, Bool.false_eq_true, if_false]
          rw [ih]
          have hnm : f entry ∉ used := by simpa using hused
          simp [List.filter_append, hnm]

theorem guPhase_idxs_extend {R : Type} (f : R → String) (evalData : List R)
    (used : List String) (target : ℕ) :
    ∀ (golden : List ℕ) (st : SelState R), ∃ extra,
      (goldenUniquePhase f evalData used target golden st).idxs =
        st.idxs ++ extra ∧ extra.Sublist golden := by
  intro golden
  induction golden with
  | nil => intro st; exact ⟨[], by simp [goldenUniquePhase]⟩
  | cons idx rest ih =>
    intro st
    rw [goldenUniquePhase]
    by_cases hfull : target ≤ st.entries.length
    · rw [if_pos hfull]
      exact ⟨[], by simp⟩
    · rw [if_neg hfull]
      cases he : evalData[idx]? with
      | none =>
        obtain ⟨extra, hex, hsub⟩ := ih st
        exact ⟨extra, hex, hsub.cons idx⟩
      | some entry =>
        by_cases hused : used.contains (f entry)
        · simp only [hused, if_true]
          obtain ⟨extra, hex, hsub⟩ := ih st
          exact ⟨extra, hex, hsub.cons idx⟩
        · simp only [Bool.not_eq_true] at hused
          simp only [hused, Bool.false_eq_true, if_false]
          obtain ⟨extra, hex, hsub⟩ := ih ⟨st.idxs ++ [idx], st.entries ++ [entry]⟩
          refine ⟨idx :: extra, ?_, hsub.cons₂ idx⟩
          simpa using hex

theorem grPhase_length_le {R : Type} (f : R → String) (evalData : List R)
    (used : List String) (target max_reused_golden : ℕ) :
    ∀ (golden : List ℕ) (golden_reused : ℕ) (st : SelState R),
      st.entries.length ≤ target →
      (goldenReusedPhase f evalData used target max_reused_golden golden
        golden_reused st).entries.length ≤ target := by
  intro golden
  induction golden with
  | nil => intro gr st h; exact h
  | cons idx rest ih =>
    intro gr st h
    rw [goldenReusedPhase]
    by_cases hfull : target ≤ st.entries.length
    · rw [if_pos hfull]; exact h
    · rw [if_neg hfull]
      by_cases hcap : max_reused_golden ≤ gr
      · rw [if_pos hcap]; exact h
      · rw [if_neg hcap]
        cases he : evalData[idx]? with
        | none => exact ih gr st h
        | some entry =>
          by_cases hsel : idx ∈ st.idxs
          · simp only [hsel, ite_true]; exact ih gr st h
          · simp only [hsel, ite_false]
            by_cases hused : used.contains (f entry)
            · simp only [hused, if_true]
              refine ih _ _ ?_
              simp only [List.length_append, List.length_cons, List.length_nil]
              omega
            · simp only [Bool.not_eq_true] at hused
              simp only [hused, Bool.false_eq_true, if_false]
              exact ih gr st h

theorem grPhase_filter_used_le {R : Type} (f : R → String) (evalData : List R)
    (used : List String) (target max_reused_golden : ℕ) :
    ∀ (golden : List ℕ) (golden_reused : ℕ) (st : SelState R),
      golden_reused ≤ max_reused_golden →
      ((goldenReusedPhase f evalData used target max_reused_golden golden
        golden_reused st).entries.filter
          (fun e => used.contains (f e))).length ≤
      (st.entries.filter (fun e => used.contains (f e))).length +
        (max_reused_golden - golden_reused) := by
  intro golden
  induction golden with
  | nil => intro gr st _; simp [goldenReusedPhase]
  | cons idx rest ih =>
    intro gr st hgr
    rw [goldenReusedPhase]
    by_cases hfull : target ≤ st.entries.length
    · rw [if_pos hfull]; omega
    · rw [if_neg hfull]
      by_cases hcap : max_reused_golden ≤ gr
      · rw [if_pos hcap]; omega
      · rw [if_neg hcap]
        cases he : evalData[idx]? with
        | none => exact Nat.le_trans (ih gr st hgr) (by omega)
        | some entry =>
          by_cases hsel : idx ∈ st.idxs
          · simp only [hsel, ite_true]
            exact Nat.le_trans (ih gr st hgr) (by omega)
          · simp only [hsel, ite_false]
            by_cases hused : used.contains (f entry)
            · simp only [hused, if_true]
              have h2 := ih (gr + 1) ⟨st.idxs ++ [idx], st.entries ++ [entry]⟩
                (by omega)
              have hfl : ((st.entries ++ [entry]).filter
                  (fun e => used.contains (f e))).length =
                  (st.entries.filter (fun e => used.contains (f e))).length + 1 := by
                have hm : f entry ∈ used := by simpa using hused
                simp [List.filter_append, hm]
              simp only [hfl] at h2
              exact Nat.le_trans h2 (by omega)
            · simp only [Bool.not_eq_true] at hused
              simp only [hused, Bool.false_eq_true, if_false]
              exact Nat.le_trans (ih gr st hgr) (by omega)

theorem grPhase_idxs_nodup {R : Type} (f : R → String) (evalData : List R)
    (used : List String) (target max_reused_golden : ℕ) :
    ∀ (golden : List ℕ) (golden_reused : ℕ) (st : SelState R),
      st.idxs.Nodup →
      (goldenReusedPhase f evalData used target max_reused_golden golden
        golden_reused st).idxs.Nodup := by
  intro golden
  induction golden with
  | nil => intro gr st h; exact h
  | cons idx rest ih =>
    intro gr st h
    rw [goldenReusedPhase]
    by_cases hfull : target ≤ st.entries.length
    · rw [if_pos hfull]; exact h
    · rw [if_neg hfull]
      by_cases hcap : max_reused_golden ≤ gr
      · rw [if_pos hcap]; exact h
      · rw [if_neg hcap]
        cases he : evalData[idx]? with
        | none => exact ih gr st h
        | some entry =>
          by_cases hsel : idx ∈ st.idxs
          · simp only [hsel, ite_true]; exact ih gr st h
          · simp only [hsel, ite_false]
            by_cases hused : used.contains (f entry)
            · simp only [hused, if_true]
              refine ih _ _ ?_
              simp [List.nodup_append, h, hsel]
            · simp only [Bool.not_eq_true] at hused
              simp only [hused, Bool.false_eq_true, if_false]
              exact ih gr st h

theorem mem_availableIndices_lt {R : Type} {f : R → String} {evalData : List R}
    {used : List String} {eu : Bool} {selIdxs : List ℕ} {i : ℕ}
    (h : i ∈ availableIndices f evalData used eu selIdxs) :
    i < evalData.length :=
  List.mem_range.mp (List.mem_of_mem_filter h)

theorem mem_availableIndices_not_sel {R : Type} {f : R → String}
    {evalData : List R} {used : List String} {eu : Bool} {selIdxs : List ℕ}
    {i : ℕ} (h : i ∈ availableIndices f evalData used eu selIdxs) :
    i ∉ selIdxs := by
  have hp := List.of_mem_filter h
  simp only [Bool.and_eq_true, Bool.not_eq_true'] at hp
  intro hmem
  have := hp.1
  simp [hmem] at this

theorem mem_availableIndices_unused {R : Type} {f : R → String}
    {evalData : List R} {used : List String} {selIdxs : List ℕ} {i : ℕ} {e : R}
    (h : i ∈ availableIndices f evalData used true selIdxs)
    (he : evalData[i]? = some e) : f e ∉ used := by
  have hp := List.of_mem_filter h
  simp only [Bool.and_eq_true, Bool.or_eq_true, Bool.not_eq_true'] at hp
  rcases hp.2 with hfalse | hall
  · simp at hfalse
  · rw [he] at hall
    simp only [Option.all_some] at hall
    intro hmem
    simp [hmem] at hall

theorem availableIndices_nodup {R : Type} (f : R → String) (evalData : List R)
    (used : List String) (eu : Bool) (selIdxs : List ℕ) :
    (availableIndices f evalData used eu selIdxs).Nodup :=
  (List.nodup_range _).filter _

theorem length_filterMap_of_isSome {α β : Type} (g : α → Option β) :
    ∀ (l : List α), (∀ a ∈ l, (g a).isSome) →
      (l.filterMap g).length = l.length := by
  intro l
  induction l with
  | nil => intro _; rfl
  | cons a rest ih =>
    intro h
    cases hg : g a with
    | none =>
      exfalso
      have := h a (List.mem_cons_self _ _)
      simp [hg] at this
    | some b =>
      simp only [List.filterMap_cons, hg, List.length_cons]
      rw [ih (fun x hx => h x (List.mem_cons_of_mem _ hx))]

theorem randomFillPhase_length {R : Type} (f : R → String) (evalData : List R)
    (used : List String) (target : ℕ) (eu : Bool)
    (shuffle : List ℕ → List ℕ) (st : SelState R)
    (hsh : (shuffle (availableIndices f evalData used eu st.idxs)).Perm
      (availableIndices f evalData used eu st.idxs)) :
    (randomFillPhase f evalData used target eu shuffle st).entries.length =
      st.entries.length + min (target - st.entries.length)
        (availableIndices f evalData used eu st.idxs).length := by
  rw [randomFillPhase]
  simp only [List.length_append]
  congr 1
  have hlen : (shuffle (availableIndices f evalData used eu st.idxs)).length =
      (availableIndices f evalData used eu st.idxs).length := hsh.length_eq
  have hsome : ∀ i ∈ (shuffle (availableIndices f evalData used eu st.idxs)).take
      (min (target - st.entries.length)
        (availableIndices f evalData used eu st.idxs).length),
      (evalData[i]?).isSome := by
    intro i hi
    have hmem : i ∈ availableIndices f evalData used eu st.idxs :=
      hsh.mem_iff.mp (List.take_subset _ _ hi)
    have hlt := mem_availableIndices_lt hmem
    rw [List.getElem?_eq_getElem hlt]
    rfl
  rw [length_filterMap_of_isSome _ _ hsome, List.length_take, hlen]
  omega

theorem randomFillPhase_filter_used {R : Type} (f : R → String)
    (evalData : List R) (used : List String) (target : ℕ)
    (shuffle : List ℕ → List ℕ) (st : SelState R)
    (hsh : (shuffle (availableIndices f evalData used true st.idxs)).Perm
      (availableIndices f evalData used true st.idxs)) :
    ((randomFillPhase f evalData used target true shuffle st).entries.filter
      (fun e => used.contains (f e))) =
    st.entries.filter (fun e => used.contains (f e)) := by
  rw [randomFillPhase]
  simp only [List.filter_append]
  have hnil : ((((shuffle (availableIndices f evalData used true st.idxs)).take
      (min (target - st.entries.length)
        (availableIndices f evalData used true st.idxs).length)).filterMap
          (fun i => evalData[i]?)).filter (fun e => used.contains (f e))) = [] := by
    rw [List.filter_eq_nil_iff]
    intro e he
    obtain ⟨i, hi, hie⟩ := List.mem_filterMap.mp he
    have hmem : i ∈ availableIndices f evalData used true st.idxs :=
      hsh.mem_iff.mp (List.take_subset _ _ hi)
    have hunused := mem_availableIndices_unused hmem hie
    simp [hunused]
  rw [hnil, List.append_nil]

theorem randomFillPhase_idxs_nodup {R : Type} (f : R → String)
    (evalData : List R) (used : List String) (target : ℕ) (eu : Bool)
    (shuffle : List ℕ → List ℕ) (st : SelState R) (hnd : st.idxs.Nodup)
    (hsh : (shuffle (availableIndices f evalData used eu st.idxs)).Perm
      (availableIndices f evalData used eu st.idxs)) :
    (randomFillPhase f evalData used target eu shuffle st).idxs.Nodup := by
  rw [randomFillPhase]
  simp only []
  rw [List.nodup_append]
  refine ⟨hnd, ?_, ?_⟩
  · refine (List.take_sublist _ _).nodup ?_
    exact hsh.nodup_iff.mpr
      (availableIndices_nodup f evalData used eu st.idxs)
  · intro x hx hx2
    have hmem : x ∈ availableIndices f evalData used eu st.idxs :=
      hsh.mem_iff.mp (List.take_subset _ _ hx2)
    exact mem_availableIndices_not_sel hmem hx

theorem randomFillPhase_length_le {R : Type} (f : R → String)
    (evalData : List R) (used : List String) (target : ℕ) (eu : Bool)
    (shuffle : List ℕ → List ℕ) (st : SelState R)
    (h : st.entries.length ≤ target) :
    (randomFillPhase f evalData used target eu shuffle st).entries.length ≤
      target := by
  rw [randomFillPhase]
  simp only [List.length_append]
  have h1 := List.length_filterMap_le (fun i => evalData[i]?)
    ((shuffle (availableIndices f evalData used eu st.idxs)).take
      (min (target - st.entries.length)
        (availableIndices f evalData used eu st.idxs).length))
  have h2 : ((shuffle (availableIndices f evalData used eu st.idxs)).take
      (min (target - st.entries.length)
        (availableIndices f evalData used eu st.idxs).length)).length ≤
      target - st.entries.length := by
    rw [List.length_take]
    exact le_trans inf_le_left (min_le_left _ _)
  omega

/-! ## Further helper lemmas -/

/-- Complete behaviour of the strict loader: on inputs without a malformed
line it returns exactly what the lenient loader returns; a malformed line
anywhere makes it fail with `JSONDecodeError`. -/
theorem load_jsonl_strict_dichotomy {R : Type} (ls : List (RawLine R)) :
    (load_jsonl_strict ls = Except.ok (load_jsonl ls) ∧ RawLine.malformed ∉ ls) ∨
    (load_jsonl_strict ls = Except.error "JSONDecodeError" ∧
      RawLine.malformed ∈ ls) := by
  induction ls with
  | nil => exact Or.inl ⟨rfl, by simp⟩
  | cons l rest ih =>
    cases l with
    | blank =>
      rcases ih with ⟨hok, hnm⟩ | ⟨herr, hm⟩
      · exact Or.inl ⟨by simpa [load_jsonl_strict, load_jsonl] using hok,
          by simp [hnm]⟩
      · exact Or.inr ⟨by simpa [load_jsonl_strict] using herr,
          List.mem_cons_of_mem _ hm⟩
    | malformed =>
      exact Or.inr ⟨rfl, List.mem_cons_self _ _⟩
    | valid r =>
      rcases ih with ⟨hok, hnm⟩ | ⟨herr, hm⟩
      · refine Or.inl ⟨?_, by simp [hnm]⟩
        simp [load_jsonl_strict, load_jsonl, hok, Except.map]
      · refine Or.inr ⟨?_, List.mem_cons_of_mem _ hm⟩
        simp [load_jsonl_strict, herr, Except.map]

/-! ## Claims -/

/-- C1 counterexample: a single Collection containing the same Record
twice, both mapping to reference position 0, makes both counters
(`find_golden_entries` and the `analyze_top_miners` top-level loop) record
2 at position 0 — more than the 1-per-Collection the claim allows. -/
theorem claim_C1_counterexample :
    lookupCount (entryCounts (fun n : ℕ => toString n) [0] [[0, 0]]) 0 = 2 ∧
    analyzerCounts (fun n : ℕ => toString n) [0] [[0, 0]] 0 = 2 ∧
    ([[0, 0]] : List (List ℕ)).length = 1 := by
  refine ⟨by decide, by decide, rfl⟩

/-- C1 (amended): the usage-frequency computation increments a reference
position's counter once per record occurrence, not at most once per
Collection — a Collection containing k Records mapping to the same position
contributes k to that position's count.  Both counting sites
(`find_golden_entries` and the `analyze_top_miners` loop) agree on this
per-occurrence count. -/
theorem claim_C1_per_occurrence_count :
    ∀ (R : Type) (f : R → String) (evalData : List R)
      (miners : List (List R)) (i : ℕ),
      lookupCount (entryCounts f evalData miners) i =
        usageCount f evalData miners i ∧
      analyzerCounts f evalData miners i = usageCount f evalData miners i :=
  fun _ f evalData miners i =>
    ⟨lookupCount_entryCounts f evalData miners i,
     analyzerCounts_eq_usageCount f evalData miners i⟩

/-- C2 counterexample: with 10 analyzed Collections and a position used by
exactly 5 of them, `min_usage_pct = 55` classifies the position as golden
(the source truncates `10 * 55 / 100` to 5), while the claimed ceiling
threshold is `ceil(0.55 * 10) = 6 > 5`, so the claimed iff fails. -/
theorem claim_C2_counterexample :
    0 ∈ (find_golden_entries (fun n : ℕ => toString n) [0]
        [[0], [0], [0], [0], [0], [], [], [], [], []] 55).map Prod.fst ∧
    usageCount (fun n : ℕ => toString n) [0]
        [[0], [0], [0], [0], [0], [], [], [], [], []] 0 = 5 ∧
    specCeilThreshold 55 10 = 6 := by
  refine ⟨by decide, by decide, by decide⟩

/-- C2 (amended): a reference position is golden iff its usage count is
positive and at least `floor(min_usage_fraction * analyzed_count)` — the
source computes `int(total_miners * min_usage_pct / 100)`, a floor, not a
ceiling.  The claim's concrete example is unaffected: with 10 analyzed
Collections and a position used by exactly 5, the position is golden at
50% and not golden at 60%. -/
theorem claim_C2_floor_threshold :
    (∀ (R : Type) (f : R → String) (evalData : List R)
        (miners : List (List R)) (pct i : ℕ),
      i ∈ (find_golden_entries f evalData miners pct).map Prod.fst ↔
        1 ≤ usageCount f evalData miners i ∧
          miners.length * pct / 100 ≤ usageCount f evalData miners i) ∧
    5 ∈ (find_golden_entries (fun n : ℕ => toString n) [0, 1, 2, 3, 4, 5]
        [[5], [5], [5], [5], [5], [], [], [], [], []] 50).map Prod.fst ∧
    5 ∉ (find_golden_entries (fun n : ℕ => toString n) [0, 1, 2, 3, 4, 5]
        [[5], [5], [5], [5], [5], [], [], [], [], []] 60).map Prod.fst := by
  refine ⟨?_, by decide, by decide⟩
  intro R f evalData miners pct i
  exact mem_find_golden_iff f evalData miners pct i

/-- C3 counterexample: a Collection containing the same Record twice, with
that Record present in the reference, yields `[0, 0]` — the claimed
duplicate-freeness fails. -/
theorem claim_C3_counterexample :
    find_entry_positions (fun n : ℕ => toString n) [0, 0] [0] = [0, 0] ∧
    ¬ (find_entry_positions (fun n : ℕ => toString n) [0, 0] [0]).Nodup := by
  refine ⟨by decide, by decide⟩

/-- C3 (amended): `find_entry_positions` returns the mapped reference
positions sorted in increasing order, but with multiplicity — each position
occurs once per Record occurrence mapping to it (duplicates are kept when
the Collection repeats a Record), not duplicate-free. -/
theorem claim_C3_sorted_positions_with_multiplicity :
    ∀ (R : Type) (f : R → String) (minerData evalData : List R),
      List.Sorted (fun a b : ℕ => a ≤ b)
        (find_entry_positions f minerData evalData) ∧
      ∀ i : ℕ, (find_entry_positions f minerData evalData).count i =
        occCount f evalData minerData i := by
  intro R f minerData evalData
  constructor
  · exact List.sorted_insertionSort _ _
  · intro i
    exact count_find_entry_positions f minerData evalData i

/-- C4 counterexample: the loader of `check_datasets.py` /
`prepare_unique_dataset.py` has no per-line recovery — a malformed line
raises `JSONDecodeError` and loading fails instead of dropping the line. -/
theorem claim_C4_counterexample :
    (load_jsonl_strict [RawLine.malformed] : Except String (List ℕ)) =
      Except.error "JSONDecodeError" := rfl

/-- C4 (amended): the lenient loader of `analyze_top_miners.py` /
`prepare_golden_dataset.py` drops each malformed line and continues,
returning exactly the successfully parsed records in order; the loader of
`check_datasets.py` / `prepare_unique_dataset.py`, however, fails on the
first malformed line (the failure is caught per-miner upstream), and
succeeds exactly on inputs with no malformed line. -/
theorem claim_C4_lenient_loader_drops_malformed :
    (∀ (R : Type) (ls₁ ls₂ : List (RawLine R)),
      load_jsonl (ls₁ ++ RawLine.malformed :: ls₂) =
        load_jsonl ls₁ ++ load_jsonl ls₂) ∧
    (∀ (R : Type) (ls : List (RawLine R)),
      load_jsonl ls = ls.filterMap
        (fun l => match l with | .valid r => some r | _ => none)) ∧
    (∀ (R : Type) (ls : List (RawLine R)),
      (load_jsonl_strict ls = Except.ok (load_jsonl ls) ∧
        RawLine.malformed ∉ ls) ∨
      (load_jsonl_strict ls = Except.error "JSONDecodeError" ∧
        RawLine.malformed ∈ ls)) := by
  refine ⟨?_, ?_, ?_⟩
  · intro R ls₁ ls₂
    rw [load_jsonl_append]
    simp [load_jsonl]
  · intro R ls
    exact load_jsonl_eq_filterMap ls
  · intro R ls
    exact load_jsonl_strict_dichotomy ls

/-- C5 counterexample: with an empty evaluation set (so no unique candidate
exists) and one entry requested, `prepare_unique_dataset.main` reports the
shortfall but returns without writing any output — contradicting the claim
that the selector always writes out a shorter result. -/
theorem claim_C5_counterexample :
    prepare_unique_dataset_main (fun n : ℕ => toString n) (fun n l => l.take n)
      [] [] 1 100 = none := by decide

/-- C5 (amended): when fewer unique fill candidates exist than remaining
slots, `prepare_golden_dataset` degrades gracefully — it returns a
selection with all available candidates, strictly fewer than `target_size`
entries, instead of failing; `prepare_unique_dataset.find_unique_entries`
likewise returns a partial result, but `prepare_unique_dataset.main` then
reports the shortfall and exits without writing any output file. -/
theorem claim_C5_graceful_shortfall {R : Type} [DecidableEq R]
    (f : R → String) (evalData : List R) (used : List String)
    (goldenIndices : List ℕ) (target max_reused_golden : ℕ)
    (shuffle : List ℕ → List ℕ) (sample : ℕ → List R → List R)
    (evalU : List R) (minersU : List (List R)) (num thr : ℕ)
    (hsh : (shuffle (availableIndices f evalData used true
        (goldenPhases f evalData used goldenIndices target
          max_reused_golden).idxs)).Perm
      (availableIndices f evalData used true
        (goldenPhases f evalData used goldenIndices target
          max_reused_golden).idxs))
    (hshort : (availableIndices f evalData used true
        (goldenPhases f evalData used goldenIndices target
          max_reused_golden).idxs).length <
      target - (goldenPhases f evalData used goldenIndices target
        max_reused_golden).entries.length)
    (hshortU : (find_unique_entries f sample evalU minersU num thr).length <
      num) :
    (prepare_golden_select f evalData used goldenIndices target
        max_reused_golden true shuffle).entries.length =
      (goldenPhases f evalData used goldenIndices target
        max_reused_golden).entries.length +
      (availableIndices f evalData used true
        (goldenPhases f evalData used goldenIndices target
          max_reused_golden).idxs).length ∧
    (prepare_golden_select f evalData used goldenIndices target
        max_reused_golden true shuffle).entries.length < target ∧
    prepare_unique_dataset_main f sample evalU minersU num thr = none := by
  have hlen := randomFillPhase_length f evalData used target true shuffle
    (goldenPhases f evalData used goldenIndices target max_reused_golden) hsh
  rw [prepare_golden_select]
  constructor
  · rw [hlen]
    omega
  constructor
  · rw [hlen]
    omega
  · simp [prepare_unique_dataset_main, hshortU]

/-- C5 witness: concrete shortfall instances for both selectors. -/
theorem claim_C5_witness :
    ((id (availableIndices (fun n : ℕ => toString n) [0] ["0"] true
        (goldenPhases (fun n : ℕ => toString n) [0] ["0"] [] 2 80).idxs)).Perm
      (availableIndices (fun n : ℕ => toString n) [0] ["0"] true
        (goldenPhases (fun n : ℕ => toString n) [0] ["0"] [] 2 80).idxs)) ∧
    (availableIndices (fun n : ℕ => toString n) [0] ["0"] true
        (goldenPhases (fun n : ℕ => toString n) [0] ["0"] [] 2 80).idxs).length <
      2 - (goldenPhases (fun n : ℕ => toString n) [0] ["0"] [] 2 80).entries.length ∧
    (find_unique_entries (fun n : ℕ => toString n) (fun n l => l.take n)
        [] [] 1 100).length < 1 ∧
    ((prepare_golden_select (fun n : ℕ => toString n) [0] ["0"] [] 2 80 true
        id).entries.length < 2 ∧
      prepare_unique_dataset_main (fun n : ℕ => toString n)
        (fun n l => l.take n) [] [] 1 100 = none) :=
  ⟨List.Perm.refl _, by decide, by decide,
    (claim_C5_graceful_shortfall (fun n : ℕ => toString n) [0] ["0"] [] 2 80
      id (fun n l => l.take n) [] [] 1 100 (List.Perm.refl _) (by decide)
      (by decide)).2⟩

/-- C6: with `target_size = 250`, `max_reused_golden = 80`, uniqueness
checking enabled and enough fill candidates available after the golden
phases, the produced collection has exactly 250 entries, and the number of
selected entries whose fingerprint is already used by an existing miner
collection (which includes every reused golden entry) never exceeds 80. -/
theorem claim_C6_selector_size_and_cap {R : Type} (f : R → String)
    (evalData : List R) (used : List String) (goldenIndices : List ℕ)
    (shuffle : List ℕ → List ℕ)
    (hsh : (shuffle (availableIndices f evalData used true
        (goldenPhases f evalData used goldenIndices 250 80).idxs)).Perm
      (availableIndices f evalData used true
        (goldenPhases f evalData used goldenIndices 250 80).idxs))
    (hfill : 250 - (goldenPhases f evalData used goldenIndices 250
        80).entries.length ≤
      (availableIndices f evalData used true
        (goldenPhases f evalData used goldenIndices 250 80).idxs).length) :
    (prepare_golden_select f evalData used goldenIndices 250 80 true
        shuffle).entries.length = 250 ∧
    ((prepare_golden_select f evalData used goldenIndices 250 80 true
        shuffle).entries.filter (fun e => used.contains (f e))).length ≤ 80 := by
  have hst1 : (goldenUniquePhase f evalData used 250 goldenIndices
      (⟨[], []⟩ : SelState R)).entries.length ≤ 250 :=
    guPhase_length_le f evalData used 250 goldenIndices ⟨[], []⟩ (by simp)
  have hst2 : (goldenPhases f evalData used goldenIndices 250
      80).entries.length ≤ 250 :=
    grPhase_length_le f evalData used 250 80 goldenIndices 0 _ hst1
  have hlen := randomFillPhase_length f evalData used 250 true shuffle
    (goldenPhases f evalData used goldenIndices 250 80) hsh
  constructor
  · rw [prepare_golden_select, hlen]
    omega
  · have hfl := randomFillPhase_filter_used f evalData used 250 shuffle
      (goldenPhases f evalData used goldenIndices 250 80) hsh
    rw [prepare_golden_select, hfl]
    have h2 := grPhase_filter_used_le f evalData used 250 80 goldenIndices 0
      (goldenUniquePhase f evalData used 250 goldenIndices ⟨[], []⟩)
      (by omega)
    have h1 := guPhase_filter_used f evalData used 250 goldenIndices ⟨[], []⟩
    rw [goldenPhases]
    simp only [h1] at h2
    simpa using h2

set_option maxRecDepth 10000 in
/-- C6 witness: an evaluation set of 250 fresh records, no golden entries
and no used fingerprints; the fill phase alone reaches exactly 250. -/
theorem claim_C6_witness :
    ((id (availableIndices (fun n : ℕ => toString n) (List.range 250) [] true
        (goldenPhases (fun n : ℕ => toString n) (List.range 250) [] [] 250
          80).idxs)).Perm
      (availableIndices (fun n : ℕ => toString n) (List.range 250) [] true
        (goldenPhases (fun n : ℕ => toString n) (List.range 250) [] [] 250
          80).idxs)) ∧
    250 - (goldenPhases (fun n : ℕ => toString n) (List.range 250) [] [] 250
        80).entries.length ≤
      (availableIndices (fun n : ℕ => toString n) (List.range 250) [] true
        (goldenPhases (fun n : ℕ => toString n) (List.range 250) [] [] 250
          80).idxs).length ∧
    ((prepare_golden_select (fun n : ℕ => toString n) (List.range 250) [] []
        250 80 true id).entries.length = 250 ∧
      ((prepare_golden_select (fun n : ℕ => toString n) (List.range 250) [] []
        250 80 true id).entries.filter
          (fun e => ([] : List String).contains (toString e))).length ≤ 80) :=
  ⟨List.Perm.refl _, by decide,
    claim_C6_selector_size_and_cap (fun n : ℕ => toString n) (List.range 250)
      [] [] id (List.Perm.refl _) (by decide)⟩

/-- C7: the duplicate clustering walks identifiers in their stable (dict)
order; every emitted cluster consists of a fresh seed together with exactly
the identifiers that were unprocessed at that point and whose overlap with
the seed strictly exceeds the threshold (equality is never pooled); all
pooled identifiers are marked processed, so distinct clusters are pairwise
disjoint. -/
theorem claim_C7_greedy_clustering {I : Type} [DecidableEq I]
    (overlap : I → I → ℕ) (thr : ℕ) (ids : List I) :
    (∀ g ∈ compare_datasets_groups overlap thr ids,
      ∃ seed procAt, seed ∉ procAt ∧
        g = seed :: poolOf overlap thr ids procAt seed ∧
        ∀ j ∈ poolOf overlap thr ids procAt seed,
          j ≠ seed ∧ j ∉ procAt ∧ thr < overlap seed j) ∧
    (compare_datasets_groups overlap thr ids).Pairwise
      (fun g₁ g₂ => ∀ x ∈ g₁, x ∉ g₂) := by
  constructor
  · intro g hg
    obtain ⟨seed, procAt, hseed, hshape, _⟩ :=
      dupGroupsGo_group_shape overlap thr ids ids [] g hg
    refine ⟨seed, procAt, hseed, hshape, ?_⟩
    intro j hj
    exact (mem_poolOf.mp hj).2
  · exact dupGroupsGo_pairwise_disjoint overlap thr ids ids []

/-- C8: the content hash digests the sorted fingerprint list, so permuting
a Collection's records never changes it. -/
theorem claim_C8_hash_order_invariant {R : Type} (md5 : String → String)
    (f : R → String) (d₁ d₂ : List R) (h : d₁.Perm d₂) :
    get_dataset_hash md5 f d₁ = get_dataset_hash md5 f d₂ := by
  rw [get_dataset_hash, get_dataset_hash,
    fingerprintList_perm_invariant f h]

/-- C8 witness: swapping two records leaves the hash unchanged. -/
theorem claim_C8_witness :
    (["b", "a"] : List String).Perm ["a", "b"] ∧
    get_dataset_hash id id ["b", "a"] = get_dataset_hash id id ["a", "b"] :=
  ⟨by decide, claim_C8_hash_order_invariant id id ["b", "a"] ["a", "b"]
    (by decide)⟩

/-- C9: `check_miner_vs_eval` flags a complete duplicate exactly when the
fingerprint-set intersection size equals the miner's record-list length
(with multiplicity); consequently a miner collection that repeats a record
is never flagged as a complete duplicate, whatever the evaluation set. -/
theorem claim_C9_complete_duplicate_iff {R : Type} (f : R → String)
    (minerData evalData : List R) (duplicate_threshold : ℕ) :
    ((check_miner_vs_eval f minerData evalData
        duplicate_threshold).is_complete_duplicate = true ↔
      count_similar f minerData evalData = minerData.length) ∧
    (¬ (minerData.map f).Nodup →
      (check_miner_vs_eval f minerData evalData
        duplicate_threshold).is_complete_duplicate = false) := by
  constructor
  · simp [check_miner_vs_eval]
  · intro hnd
    have h1 := count_similar_le_dedup_length f minerData evalData
    have h2 := dedup_length_lt_of_not_nodup hnd
    have h3 : (minerData.map f).length = minerData.length :=
      List.length_map _ _
    have : count_similar f minerData evalData ≠ minerData.length := by omega
    simp [check_miner_vs_eval, this]

/-- C9 witness: a two-record miner collection repeating a record whose
fingerprint is in the evaluation set is not a complete duplicate. -/
theorem claim_C9_witness :
    ¬ (([0, 0] : List ℕ).map (fun n => toString n)).Nodup ∧
    (check_miner_vs_eval (fun n : ℕ => toString n) [0, 0] [0]
      100).is_complete_duplicate = false :=
  ⟨by decide,
    (claim_C9_complete_duplicate_iff (fun n : ℕ => toString n) [0, 0] [0]
      100).2 (by decide)⟩

/-- C10 counterexample: the golden-unique phase does not consult
`selected_indices` before adding; feeding the selection core a golden index
list with a repeated index makes position 0 selected twice, refuting the
claim that every phase checks the already-selected set. -/
theorem claim_C10_counterexample :
    (prepare_golden_select (fun n : ℕ => toString n) [0] [] [0, 0] 2 80 true
      id).idxs = [0, 0] ∧
    ¬ (prepare_golden_select (fun n : ℕ => toString n) [0] [] [0, 0] 2 80 true
      id).idxs.Nodup := by
  refine ⟨by decide, by decide⟩

/-- C10 (amended): the golden-reused and random-fill phases check the
already-selected positions before adding, but the golden-unique phase does
not; no position is ever selected twice anyway because the golden index
list produced by `find_golden_entries` is duplicate-free (dict keys), and
the output never exceeds `target_size` entries. -/
theorem claim_C10_no_duplicate_selection {R : Type} (f : R → String)
    (evalData : List R) (used : List String) (goldenIndices : List ℕ)
    (target max_reused_golden : ℕ) (ensure_unique : Bool)
    (shuffle : List ℕ → List ℕ) (miners : List (List R)) (pct : ℕ)
    (hg : goldenIndices.Nodup)
    (hsh : (shuffle (availableIndices f evalData used ensure_unique
        (goldenPhases f evalData used goldenIndices target
          max_reused_golden).idxs)).Perm
      (availableIndices f evalData used ensure_unique
        (goldenPhases f evalData used goldenIndices target
          max_reused_golden).idxs)) :
    ((find_golden_entries f evalData miners pct).map Prod.fst).Nodup ∧
    (prepare_golden_select f evalData used goldenIndices target
      max_reused_golden ensure_unique shuffle).idxs.Nodup ∧
    (prepare_golden_select f evalData used goldenIndices target
      max_reused_golden ensure_unique shuffle).entries.length ≤ target := by
  refine ⟨find_golden_keys_nodup f evalData miners pct, ?_, ?_⟩
  · obtain ⟨extra, hex, hsub⟩ := guPhase_idxs_extend f evalData used target
      goldenIndices (⟨[], []⟩ : SelState R)
    have hnd1 : (goldenUniquePhase f evalData used target goldenIndices
        (⟨[], []⟩ : SelState R)).idxs.Nodup := by
      rw [hex]
      simpa using hsub.nodup hg
    have hnd2 : (goldenPhases f evalData used goldenIndices target
        max_reused_golden).idxs.Nodup :=
      grPhase_idxs_nodup f evalData used target max_reused_golden
        goldenIndices 0 _ hnd1
    exact randomFillPhase_idxs_nodup f evalData used target ensure_unique
      shuffle _ hnd2 hsh
  · have hst1 : (goldenUniquePhase f evalData used target goldenIndices
        (⟨[], []⟩ : SelState R)).entries.length ≤ target :=
      guPhase_length_le f evalData used target goldenIndices ⟨[], []⟩ (by simp)
    have hst2 : (goldenPhases f evalData used goldenIndices target
        max_reused_golden).entries.length ≤ target :=
      grPhase_length_le f evalData used target max_reused_golden
        goldenIndices 0 _ hst1
    exact randomFillPhase_length_le f evalData used target ensure_unique
      shuffle _ hst2

/-- C10 witness: a singleton golden list on a one-record evaluation set
selects each position once and stays within the target. -/
theorem claim_C10_witness :
    ([0] : List ℕ).Nodup ∧
    ((id (availableIndices (fun n : ℕ => toString n) [0] [] true
        (goldenPhases (fun n : ℕ => toString n) [0] [] [0] 1 80).idxs)).Perm
      (availableIndices (fun n : ℕ => toString n) [0] [] true
        (goldenPhases (fun n : ℕ => toString n) [0] [] [0] 1 80).idxs)) ∧
    (((find_golden_entries (fun n : ℕ => toString n) [0]
        ([] : List (List ℕ)) 50).map Prod.fst).Nodup ∧
      (prepare_golden_select (fun n : ℕ => toString n) [0] [] [0] 1 80 true
        id).idxs.Nodup ∧
      (prepare_golden_select (fun n : ℕ => toString n) [0] [] [0] 1 80 true
        id).entries.length ≤ 1) :=
  ⟨by decide, List.Perm.refl _,
    claim_C10_no_duplicate_selection (fun n : ℕ => toString n) [0] [] [0] 1
      80 true id [] 50 (by decide) (List.Perm.refl _)⟩
